import Mathlib

/-!
Cprotein: the PDB parser (`src/utils/pdbParser.js`).

A shallow embedding of `parsePDB` and `normalizeCoordinatesForAtoms`.

* A JavaScript string is the list of its UTF-16 code units (`JSString`), so that
  `substring` counts exactly what the engine counts.
* A JavaScript number is modelled in exact arithmetic (`JSNum`): a rational, `NaN`,
  or one of the two infinities.  The special values follow IEEE 754; finite values are
  not rounded and never overflow, and negative zero is identified with zero.
-/

namespace Cprotein

/-! ## Numbers -/

/-- The value of a JavaScript number, in exact arithmetic. -/
inductive JSNum where
  | nan : JSNum
  | inf (neg : Bool) : JSNum
  | fin (q : ℚ) : JSNum
  deriving DecidableEq

namespace JSNum

/-- The global `isNaN` applied to a number. -/
def isNaN : JSNum → Bool
  | nan => true
  | _ => false

/-- The global `isFinite` applied to a number. -/
def isFinite : JSNum → Bool
  | fin _ => true
  | _ => false

/-- The operator `a + b`. -/
def add : JSNum → JSNum → JSNum
  | nan, _ => nan
  | _, nan => nan
  | inf s, inf t => if s = t then inf s else nan
  | inf s, fin _ => inf s
  | fin _, inf t => inf t
  | fin a, fin b => fin (a + b)

/-- The operator `a - b`. -/
def sub : JSNum → JSNum → JSNum
  | nan, _ => nan
  | _, nan => nan
  | inf s, inf t => if s = t then nan else inf s
  | inf s, fin _ => inf s
  | fin _, inf t => inf (!t)
  | fin a, fin b => fin (a - b)

/-- The operator `a * b`. -/
def mul : JSNum → JSNum → JSNum
  | nan, _ => nan
  | _, nan => nan
  | inf s, inf t => inf (s != t)
  | inf s, fin b => if b = 0 then nan else inf (s != decide (b < 0))
  | fin a, inf t => if a = 0 then nan else inf (decide (a < 0) != t)
  | fin a, fin b => fin (a * b)

/-- The operator `a / b` (a zero divisor is taken as `+0`). -/
def div : JSNum → JSNum → JSNum
  | nan, _ => nan
  | _, nan => nan
  | inf _, inf _ => nan
  | inf s, fin b => inf (s != decide (b < 0))
  | fin _, inf _ => fin 0
  | fin a, fin b => if b = 0 then (if a = 0 then nan else inf (decide (a < 0))) else fin (a / b)

/-- The operator `a > b`. -/
def gt : JSNum → JSNum → Bool
  | nan, _ => false
  | _, nan => false
  | inf s, inf t => !s && t
  | inf s, fin _ => !s
  | fin _, inf t => t
  | fin a, fin b => decide (b < a)

/-- The call `Math.min(a, b)`. -/
def min : JSNum → JSNum → JSNum
  | nan, _ => nan
  | _, nan => nan
  | inf s, inf t => inf (s || t)
  | inf s, fin b => if s then inf true else fin b
  | fin a, inf t => if t then inf true else fin a
  | fin a, fin b => fin (if a ≤ b then a else b)

/-- The call `Math.max(a, b)`. -/
def max : JSNum → JSNum → JSNum
  | nan, _ => nan
  | _, nan => nan
  | inf s, inf t => inf (s && t)
  | inf s, fin b => if s then fin b else inf false
  | fin a, inf t => if t then fin a else inf false
  | fin a, fin b => fin (if a ≤ b then b else a)

/-- The call `Math.max(a, b, c)`. -/
def max3 (a b c : JSNum) : JSNum := max (max a b) c

end JSNum

/-! ## Strings -/

/-- A JavaScript string: its UTF-16 code units. -/
abbrev JSString := List Nat

/-- The code units of one character. -/
def utf16Char (c : Char) : List Nat :=
  if c.toNat < 65536 then [c.toNat]
  else [55296 + (c.toNat - 65536) / 1024, 56320 + (c.toNat - 65536) % 1024]

/-- The JavaScript string written as the literal `s`. -/
def utf16 (s : String) : JSString := s.toList.flatMap utf16Char

/-- White space and line terminators: what `trim` strips and what `\s` matches. -/
def isWhiteSpace (c : Nat) : Bool :=
  c = 9 || c = 10 || c = 11 || c = 12 || c = 13 || c = 32 || c = 160 || c = 5760 ||
  (8192 ≤ c && c ≤ 8202) || c = 8232 || c = 8233 || c = 8239 || c = 8287 ||
  c = 12288 || c = 65279

/-- Strip leading white space. -/
def trimStart (s : JSString) : JSString := s.dropWhile isWhiteSpace

/-- The method `s.trim()`. -/
def trim (s : JSString) : JSString :=
  ((s.dropWhile isWhiteSpace).reverse.dropWhile isWhiteSpace).reverse

/-- The method `s.substring(a, b)` for `a ≤ b`: out-of-range indices are clamped. -/
def substring (s : JSString) (a b : Nat) : JSString := (s.take b).drop a

/-- The call `s.replace(/\s/g, '')`. -/
def removeWhiteSpace (s : JSString) : JSString := s.filter (fun c => !isWhiteSpace c)

/-- The helper of `split`: `cur` is the current line, reversed. -/
def splitAux : List Nat → List Nat → List JSString
  | [], cur => [cur.reverse]
  | c :: cs, cur => if c = 10 then cur.reverse :: splitAux cs [] else splitAux cs (c :: cur)

/-- The method `s.split('\n')`. -/
def split (s : JSString) : List JSString := splitAux s []

/-- A decimal digit. -/
def isDigit (c : Nat) : Bool := 48 ≤ c && c ≤ 57

/-- The value of a run of decimal digits. -/
def digitsValue (ds : List Nat) : Nat := ds.foldl (fun n c => 10 * n + (c - 48)) 0

/-- The value of a hexadecimal digit, if it is one. -/
def hexDigit (c : Nat) : Option Nat :=
  if 48 ≤ c && c ≤ 57 then some (c - 48)
  else if 97 ≤ c && c ≤ 102 then some (c - 87)
  else if 65 ≤ c && c ≤ 70 then some (c - 55)
  else none

/-- The code units of `Infinity`. -/
def infinityLit : JSString := [73, 110, 102, 105, 110, 105, 116, 121]

/-- The exponent of the `ExponentPart` at the head of `s`, or `0` when none is there:
`e` or `E`, an optional sign, and at least one digit. -/
def exponentPart (s : JSString) : Int :=
  if s.head? = some 101 ∨ s.head? = some 69 then
    let r := s.tail
    if r.head? = some 45 then
      (if r.tail.takeWhile isDigit = [] then 0
        else -(digitsValue (r.tail.takeWhile isDigit) : Int))
    else if r.head? = some 43 then
      (if r.tail.takeWhile isDigit = [] then 0
        else (digitsValue (r.tail.takeWhile isDigit) : Int))
    else
      (if r.takeWhile isDigit = [] then 0 else (digitsValue (r.takeWhile isDigit) : Int))
  else 0

/-- The rational `m * 10 ^ e`. -/
def scale10 (m : Nat) (e : Int) : ℚ :=
  if 0 ≤ e then ((m * 10 ^ e.toNat : Nat) : ℚ) else (m : ℚ) / ((10 ^ (-e).toNat : Nat) : ℚ)

/-- The global `parseFloat` on a string: leading white space is skipped, then the longest
prefix that is a `StrDecimalLiteral` is read (an optional sign, then `Infinity` or a decimal
mantissa with an optional exponent); `NaN` when there is no such prefix. -/
def parseFloat (str : JSString) : JSNum :=
  let s := trimStart str
  let neg : Bool := s.head? = some 45
  let body := if s.head? = some 45 ∨ s.head? = some 43 then s.tail else s
  if body.take 8 = infinityLit then JSNum.inf neg
  else
    let intDigits := body.takeWhile isDigit
    let rest := body.dropWhile isDigit
    let fracDigits := if rest.head? = some 46 then rest.tail.takeWhile isDigit else []
    let afterFrac := if rest.head? = some 46 then rest.tail.dropWhile isDigit else rest
    if intDigits = [] ∧ fracDigits = [] then JSNum.nan
    else
      let v := scale10 (digitsValue (intDigits ++ fracDigits))
        (exponentPart afterFrac - (fracDigits.length : Int))
      JSNum.fin (if neg then -v else v)

/-- The value of a run of hexadecimal digits. -/
def hexValue (ds : List Nat) : Nat := ds.foldl (fun n c => 16 * n + (hexDigit c).getD 0) 0

/-- The global `parseInt` on a string, with no radix argument: leading white space is
skipped, a sign is read, a `0x` or `0X` marker selects radix 16 (else radix 10), and the
longest run of digits of that radix is the value; `NaN` when the run is empty. -/
def parseInt (str : JSString) : JSNum :=
  let s := trimStart str
  let neg : Bool := s.head? = some 45
  let body := if s.head? = some 45 ∨ s.head? = some 43 then s.tail else s
  if body.take 2 = [48, 120] ∨ body.take 2 = [48, 88] then
    let z := (body.drop 2).takeWhile (fun c => (hexDigit c).isSome)
    if z = [] then JSNum.nan
    else JSNum.fin (if neg then -((hexValue z : Nat) : ℚ) else ((hexValue z : Nat) : ℚ))
  else
    let z := body.takeWhile isDigit
    if z = [] then JSNum.nan
    else JSNum.fin (if neg then -((digitsValue z : Nat) : ℚ) else ((digitsValue z : Nat) : ℚ))

/-! ## Records -/

/-- One record of the output: the object pushed by `parsePDB`. -/
structure Atom where
  x : JSNum
  y : JSNum
  z : JSNum
  element : JSString
  atomName : JSString
  residueName : JSString
  chainId : JSString
  residueSeq : JSNum
  deriving DecidableEq

/-- The two arrays `atoms` and `hetatms`. -/
structure Groups where
  atoms : List Atom
  hetatms : List Atom
  deriving DecidableEq

/-- The string `ATOM`. -/
def tagATOM : JSString := [65, 84, 79, 77]

/-- The string `HETATM`. -/
def tagHETATM : JSString := [72, 69, 84, 65, 84, 77]

/-! ## `normalizeCoordinatesForAtoms` -/

/-- The six running extrema of the loop in `normalizeCoordinatesForAtoms`. -/
structure Bounds where
  minX : JSNum
  minY : JSNum
  minZ : JSNum
  maxX : JSNum
  maxY : JSNum
  maxZ : JSNum
  deriving DecidableEq

/-- The initial extrema: `Infinity` for the minima, `-Infinity` for the maxima. -/
def Bounds.init : Bounds :=
  { minX := JSNum.inf false, minY := JSNum.inf false, minZ := JSNum.inf false,
    maxX := JSNum.inf true, maxY := JSNum.inf true, maxZ := JSNum.inf true }

/-- One iteration of the loop over `atomArray`. -/
def Bounds.step (b : Bounds) (atom : Atom) : Bounds :=
  { minX := JSNum.min b.minX atom.x,
    minY := JSNum.min b.minY atom.y,
    minZ := JSNum.min b.minZ atom.z,
    maxX := JSNum.max b.maxX atom.x,
    maxY := JSNum.max b.maxY atom.y,
    maxZ := JSNum.max b.maxZ atom.z }

/-- The extrema after the loop. -/
def bounds (atomArray : List Atom) : Bounds := atomArray.foldl Bounds.step Bounds.init

/-- The local `sizeX`. -/
def Bounds.sizeX (b : Bounds) : JSNum := JSNum.sub b.maxX b.minX

/-- The local `sizeY`. -/
def Bounds.sizeY (b : Bounds) : JSNum := JSNum.sub b.maxY b.minY

/-- The local `sizeZ`. -/
def Bounds.sizeZ (b : Bounds) : JSNum := JSNum.sub b.maxZ b.minZ

/-- The local `maxSize`. -/
def Bounds.maxSize (b : Bounds) : JSNum := JSNum.max3 b.sizeX b.sizeY b.sizeZ

/-- The local `centerX`. -/
def Bounds.centerX (b : Bounds) : JSNum := JSNum.div (JSNum.add b.minX b.maxX) (JSNum.fin 2)

/-- The local `centerY`. -/
def Bounds.centerY (b : Bounds) : JSNum := JSNum.div (JSNum.add b.minY b.maxY) (JSNum.fin 2)

/-- The local `centerZ`. -/
def Bounds.centerZ (b : Bounds) : JSNum := JSNum.div (JSNum.add b.minZ b.maxZ) (JSNum.fin 2)

/-- The local `scale`: `maxSize > 0 ? 8 / maxSize : 1`. -/
def Bounds.scale (b : Bounds) : JSNum :=
  if JSNum.gt b.maxSize (JSNum.fin 0) then JSNum.div (JSNum.fin 8) b.maxSize else JSNum.fin 1

/-- The arrow function passed to `map`: the record with its coordinates replaced. -/
def moveAtom (b : Bounds) (atom : Atom) : Atom :=
  { atom with
    x := JSNum.mul (JSNum.sub atom.x b.centerX) b.scale,
    y := JSNum.mul (JSNum.sub atom.y b.centerY) b.scale,
    z := JSNum.mul (JSNum.sub atom.z b.centerZ) b.scale }

/-- The function `normalizeCoordinatesForAtoms`. -/
def normalizeCoordinatesForAtoms (atomArray : List Atom) : List Atom :=
  if atomArray.length = 0 then atomArray
  else atomArray.map (moveAtom (bounds atomArray))

/-! ## `parsePDB` -/

/-- The body of the loop over the lines, on the pair of arrays built so far. -/
def parseLine (st : Groups) (line : JSString) : Groups :=
  let recordType := trim (substring line 0 6)
  if recordType = tagATOM then
    let x := parseFloat (trim (substring line 30 38))
    let y := parseFloat (trim (substring line 38 46))
    let z := parseFloat (trim (substring line 46 54))
    let element := trim (substring line 76 78)
    let atomName := removeWhiteSpace (trim (substring line 12 16))
    let residueName := trim (substring line 17 20)
    let chainId := trim (substring line 21 22)
    let residueSeq := parseInt (trim (substring line 22 26))
    if !x.isNaN && !y.isNaN && !z.isNaN then
      { st with atoms := st.atoms ++ [{
          x := x, y := y, z := z, element := element,
          atomName := atomName, residueName := residueName, chainId := chainId,
          residueSeq := residueSeq }] }
    else st
  else if recordType = tagHETATM then
    let x := parseFloat (trim (substring line 30 38))
    let y := parseFloat (trim (substring line 38 46))
    let z := parseFloat (trim (substring line 46 54))
    let element := trim (substring line 76 78)
    let atomName := removeWhiteSpace (trim (substring line 12 16))
    let residueName := trim (substring line 17 20)
    let chainId := trim (substring line 21 22)
    let residueSeq := parseInt (trim (substring line 22 26))
    if !x.isNaN && !y.isNaN && !z.isNaN then
      { st with hetatms := st.hetatms ++ [{
          x := x, y := y, z := z, element := element,
          atomName := atomName, residueName := residueName, chainId := chainId,
          residueSeq := residueSeq }] }
    else st
  else st

/-- The two arrays when the loop over the lines has ended. -/
def extract (pdbContent : JSString) : Groups :=
  (split pdbContent).foldl parseLine { atoms := [], hetatms := [] }

/-- The function `parsePDB`. -/
def parsePDB (pdbContent : JSString) : Groups :=
  { atoms := normalizeCoordinatesForAtoms (extract pdbContent).atoms,
    hetatms := normalizeCoordinatesForAtoms (extract pdbContent).hetatms }

/-! ## The pieces of the loop body, named -/

/-- The local `recordType` of a line. -/
def recordType (line : JSString) : JSString := trim (substring line 0 6)

/-- The local `x` of a line. -/
def xOf (line : JSString) : JSNum := parseFloat (trim (substring line 30 38))

/-- The local `y` of a line. -/
def yOf (line : JSString) : JSNum := parseFloat (trim (substring line 38 46))

/-- The local `z` of a line. -/
def zOf (line : JSString) : JSNum := parseFloat (trim (substring line 46 54))

/-- The guard of `push`: `!isNaN(x) && !isNaN(y) && !isNaN(z)`. -/
def coordsValid (line : JSString) : Bool :=
  !(xOf line).isNaN && !(yOf line).isNaN && !(zOf line).isNaN

/-- The object that a line pushes when the guard holds. -/
def recordOf (line : JSString) : Atom :=
  { x := xOf line, y := yOf line, z := zOf line,
    element := trim (substring line 76 78),
    atomName := removeWhiteSpace (trim (substring line 12 16)),
    residueName := trim (substring line 17 20),
    chainId := trim (substring line 21 22),
    residueSeq := parseInt (trim (substring line 22 26)) }

/-- A line that pushes onto the array of the tag `tag`. -/
def pushes (tag : JSString) (line : JSString) : Bool :=
  decide (recordType line = tag) && coordsValid line

/-- The non-geometric fields of a record. -/
structure Fields where
  element : JSString
  atomName : JSString
  residueName : JSString
  chainId : JSString
  residueSeq : JSNum
  deriving DecidableEq

/-- The non-geometric fields of a record of the output. -/
def Atom.fields (a : Atom) : Fields :=
  { element := a.element, atomName := a.atomName, residueName := a.residueName,
    chainId := a.chainId, residueSeq := a.residueSeq }

/-- The non-geometric fields as the column layout gives them: element `[76,78)` trimmed,
atom name `[12,16)` trimmed and without inner white space, residue name `[17,20)` trimmed,
chain id `[21,22)` trimmed, residue sequence number `[22,26)` trimmed and read as an integer. -/
def lineFields (line : JSString) : Fields :=
  { element := trim (substring line 76 78),
    atomName := removeWhiteSpace (trim (substring line 12 16)),
    residueName := trim (substring line 17 20),
    chainId := trim (substring line 21 22),
    residueSeq := parseInt (trim (substring line 22 26)) }

/-- A record whose three coordinates are finite. -/
def Atom.Finite (a : Atom) : Prop :=
  a.x.isFinite = true ∧ a.y.isFinite = true ∧ a.z.isFinite = true

instance (a : Atom) : Decidable a.Finite := by unfold Atom.Finite; infer_instance

/-! ## Finite groups, seen over the rationals

What follows is used to state and prove the geometry of the normalizer; it is not part of the
program. -/

/-- The rational value of a finite number (`0` for `NaN` and the infinities). -/
def JSNum.toRat : JSNum → ℚ
  | JSNum.fin q => q
  | _ => 0

/-- The x coordinate of a record, as a rational. -/
def Atom.qx (a : Atom) : ℚ := a.x.toRat

/-- The y coordinate of a record, as a rational. -/
def Atom.qy (a : Atom) : ℚ := a.y.toRat

/-- The z coordinate of a record, as a rational. -/
def Atom.qz (a : Atom) : ℚ := a.z.toRat

/-- The least of `q` and the values of `c` over `g`. -/
def lo (c : Atom → ℚ) (q : ℚ) (g : List Atom) : ℚ := g.foldl (fun m a => min m (c a)) q

/-- The greatest of `q` and the values of `c` over `g`. -/
def hi (c : Atom → ℚ) (q : ℚ) (g : List Atom) : ℚ := g.foldl (fun m a => max m (c a)) q

/-- Six rational extrema. -/
structure Box where
  lx : ℚ
  ly : ℚ
  lz : ℚ
  hx : ℚ
  hy : ℚ
  hz : ℚ

/-- The extrema of the program that hold the six rationals. -/
def Box.toBounds (B : Box) : Bounds :=
  { minX := JSNum.fin B.lx, minY := JSNum.fin B.ly, minZ := JSNum.fin B.lz,
    maxX := JSNum.fin B.hx, maxY := JSNum.fin B.hy, maxZ := JSNum.fin B.hz }

/-- The largest of the three extents. -/
def Box.size (B : Box) : ℚ := max (max (B.hx - B.lx) (B.hy - B.ly)) (B.hz - B.lz)

/-- The scale factor. -/
def Box.scale (B : Box) : ℚ := if 0 < B.size then 8 / B.size else 1

/-- The extrema of the group `a :: t`. -/
def boxOf (a : Atom) (t : List Atom) : Box :=
  { lx := lo Atom.qx a.qx t, ly := lo Atom.qy a.qy t, lz := lo Atom.qz a.qz t,
    hx := hi Atom.qx a.qx t, hy := hi Atom.qy a.qy t, hz := hi Atom.qz a.qz t }

/-- The extrema of the group `a :: t` after it is moved into place. -/
def Box.moved (B : Box) : Box :=
  { lx := (B.lx - (B.lx + B.hx) / 2) * B.scale, ly := (B.ly - (B.ly + B.hy) / 2) * B.scale,
    lz := (B.lz - (B.lz + B.hz) / 2) * B.scale, hx := (B.hx - (B.lx + B.hx) / 2) * B.scale,
    hy := (B.hy - (B.ly + B.hy) / 2) * B.scale, hz := (B.hz - (B.lz + B.hz) / 2) * B.scale }

/-- A record with the three given rational coordinates and no text. -/
def point (x y z : ℚ) : Atom :=
  { x := JSNum.fin x, y := JSNum.fin y, z := JSNum.fin z, element := [], atomName := [],
    residueName := [], chainId := [], residueSeq := JSNum.nan }

/-! ## Example inputs -/

/-- The first line of the example scenario. -/
def line1 : JSString :=
  utf16 "ATOM      1  N   ALA A   1      10.000  10.000  10.000  1.00  0.00           N"

/-- The second line of the example scenario. -/
def line2 : JSString :=
  utf16 "ATOM      2  CA  ALA A   1      12.000  10.000  10.000  1.00  0.00           C"

/-- A line whose x column reads `Infinity`. -/
def lineInf : JSString :=
  utf16 "ATOM      1  N   ALA A   1    Infinity  10.000  10.000  1.00  0.00           N"

/-- A heteroatom line. -/
def lineHet : JSString :=
  utf16 "HETATM    3  O   HOH A   2       1.000   2.000   3.000  1.00  0.00           O"

/-- A line with the coordinate columns only: no residue number, no element. -/
def lineBare : JSString :=
  utf16 "ATOM                             1.500  -2.000   3.250"

/-- A heteroatom line whose z column reads `Infinity`. -/
def lineHetInf : JSString :=
  utf16 "HETATM    3  O   HOH A   2       1.000   2.000Infinity  1.00  0.00           O"

/-- The group that `parsePDB` passes to the normalizer for the lines `lineInf`, `line1`. -/
def groupInfTwo : List Atom := (extract (lineInf ++ [10] ++ line1)).atoms

/-- The group that `parsePDB` passes to the normalizer for the line `lineHetInf`. -/
def groupHetInf : List Atom := (extract lineHetInf).hetatms

/-- The method `lines.join('\n')`. -/
def joinLines : List JSString → JSString
  | [] => []
  | [l] => l
  | l :: m :: ls => l ++ 10 :: joinLines (m :: ls)

/-- The text `text` with `L` inserted as a line of its own before line `i` (after the last
line when `i` is past the end). -/
def insertLine (text L : JSString) (i : Nat) : JSString :=
  joinLines ((split text).take i ++ L :: (split text).drop i)

/-- The record moved by the offset `(dx, dy, dz)`. -/
def translate (dx dy dz : ℚ) (a : Atom) : Atom :=
  { a with
    x := JSNum.add a.x (JSNum.fin dx),
    y := JSNum.add a.y (JSNum.fin dy),
    z := JSNum.add a.z (JSNum.fin dz) }

/-- The extrema moved by the offset `(dx, dy, dz)`. -/
def Bounds.shift (dx dy dz : ℚ) (b : Bounds) : Bounds :=
  { minX := JSNum.add b.minX (JSNum.fin dx), minY := JSNum.add b.minY (JSNum.fin dy),
    minZ := JSNum.add b.minZ (JSNum.fin dz), maxX := JSNum.add b.maxX (JSNum.fin dx),
    maxY := JSNum.add b.maxY (JSNum.fin dy), maxZ := JSNum.add b.maxZ (JSNum.fin dz) }

/-- A tagged line of 46 characters: the z column is missing. -/
def lineShort : JSString :=
  utf16 "ATOM      1  N   ALA A   1      10.000  10.000"

/-- A line with another tag. -/
def lineRemark : JSString :=
  utf16 "REMARK    1  N   ALA A   1      10.000  10.000  10.000  1.00  0.00           N"

/-- What follows the tag in the first line of the example scenario. -/
def restOfLine1 : JSString :=
  utf16 "    1  N   ALA A   1      10.000  10.000  10.000  1.00  0.00           N"

/-- A tagged line whose x column holds a number followed by letters. -/
def lineLeading : JSString :=
  utf16 "ATOM      1  N   ALA A   1     12.0abc  10.000  10.000  1.00  0.00           N"

/-! ## The loop over the lines -/

theorem tagATOM_ne_tagHETATM : tagATOM ≠ tagHETATM := by decide

theorem parseLine_eq (st : Groups) (line : JSString) :
    parseLine st line =
      if recordType line = tagATOM then
        (if coordsValid line then { st with atoms := st.atoms ++ [recordOf line] } else st)
      else if recordType line = tagHETATM then
        (if coordsValid line then { st with hetatms := st.hetatms ++ [recordOf line] } else st)
      else st := by
  rfl

theorem parseLine_atoms (st : Groups) (line : JSString) :
    (parseLine st line).atoms =
      st.atoms ++ (if pushes tagATOM line then [recordOf line] else []) := by
  rw [parseLine_eq]
  unfold pushes
  by_cases h1 : recordType line = tagATOM
  · by_cases h2 : coordsValid line = true <;> simp [h1, h2]
  · by_cases h3 : recordType line = tagHETATM
    · by_cases h2 : coordsValid line = true <;>
        simp [h2, h3, tagATOM_ne_tagHETATM.symm, tagATOM_ne_tagHETATM]
    · simp [h1, h3]

theorem parseLine_hetatms (st : Groups) (line : JSString) :
    (parseLine st line).hetatms =
      st.hetatms ++ (if pushes tagHETATM line then [recordOf line] else []) := by
  rw [parseLine_eq]
  unfold pushes
  by_cases h1 : recordType line = tagATOM
  · have h3 : recordType line ≠ tagHETATM := by
      rw [h1]; exact tagATOM_ne_tagHETATM
    by_cases h2 : coordsValid line = true <;> simp [h1, h2, h3, tagATOM_ne_tagHETATM]
  · by_cases h3 : recordType line = tagHETATM
    · by_cases h2 : coordsValid line = true <;>
        simp [h2, h3, tagATOM_ne_tagHETATM.symm, tagATOM_ne_tagHETATM]
    · simp [h1, h3]

theorem foldl_parseLine_atoms (ls : List JSString) (st : Groups) :
    (ls.foldl parseLine st).atoms = st.atoms ++ (ls.filter (pushes tagATOM)).map recordOf := by
  induction ls generalizing st with
  | nil => simp
  | cons l ls ih =>
    rw [List.foldl_cons, ih, parseLine_atoms]
    by_cases h : pushes tagATOM l = true <;> simp [h, List.filter_cons]

theorem foldl_parseLine_hetatms (ls : List JSString) (st : Groups) :
    (ls.foldl parseLine st).hetatms =
      st.hetatms ++ (ls.filter (pushes tagHETATM)).map recordOf := by
  induction ls generalizing st with
  | nil => simp
  | cons l ls ih =>
    rw [List.foldl_cons, ih, parseLine_hetatms]
    by_cases h : pushes tagHETATM l = true <;> simp [h, List.filter_cons]

theorem extract_atoms (text : JSString) :
    (extract text).atoms = ((split text).filter (pushes tagATOM)).map recordOf := by
  simp [extract, foldl_parseLine_atoms]

theorem extract_hetatms (text : JSString) :
    (extract text).hetatms = ((split text).filter (pushes tagHETATM)).map recordOf := by
  simp [extract, foldl_parseLine_hetatms]

/-! ## The normalizer keeps the records -/

theorem moveAtom_fields (b : Bounds) (a : Atom) : (moveAtom b a).fields = a.fields := rfl

theorem normalize_length (g : List Atom) :
    (normalizeCoordinatesForAtoms g).length = g.length := by
  unfold normalizeCoordinatesForAtoms
  split <;> simp

theorem normalize_map_fields (g : List Atom) :
    (normalizeCoordinatesForAtoms g).map Atom.fields = g.map Atom.fields := by
  unfold normalizeCoordinatesForAtoms
  split
  · rfl
  · rw [List.map_map]
    apply List.map_congr_left
    intro a _
    rfl

theorem trim_eq_nil_of_all_white (s : JSString) (h : ∀ c ∈ s, isWhiteSpace c = true) :
    trim s = [] := by
  have h1 : s.dropWhile isWhiteSpace = [] := by
    rw [List.dropWhile_eq_nil_iff]
    exact h
  simp [trim, h1]

theorem substring_eq_nil_of_short (s : JSString) (a b : Nat) (h : s.length ≤ a) :
    substring s a b = [] := by
  unfold substring
  rw [List.drop_eq_nil_iff, List.length_take]
  omega

theorem coordsValid_iff (line : JSString) :
    coordsValid line = true ↔
      ((xOf line).isNaN = false ∧ (yOf line).isNaN = false ∧ (zOf line).isNaN = false) := by
  unfold coordsValid
  cases (xOf line).isNaN <;> cases (yOf line).isNaN <;> cases (zOf line).isNaN <;> simp

theorem extract_not_nan (text : JSString) (r : Atom)
    (hr : r ∈ (extract text).atoms ++ (extract text).hetatms) :
    r.x.isNaN = false ∧ r.y.isNaN = false ∧ r.z.isNaN = false := by
  rw [extract_atoms, extract_hetatms] at hr
  simp only [List.mem_append, List.mem_map, List.mem_filter] at hr
  rcases hr with ⟨l, ⟨_, hl⟩, rfl⟩ | ⟨l, ⟨_, hl⟩, rfl⟩ <;>
  · unfold pushes at hl
    simp only [Bool.and_eq_true] at hl
    exact (coordsValid_iff l).1 hl.2

/-! ## Claims about the records kept and their order -/

/-- C3: for every record group, `normalizeCoordinatesForAtoms` returns a group of the same
length, and at every index the output record has the element, atom name, residue name, chain
id and residue sequence number of the input record at that index. -/
theorem normalize_preserves_records (g : List Atom) :
    (normalizeCoordinatesForAtoms g).length = g.length ∧
    ∀ i : Nat, ((normalizeCoordinatesForAtoms g)[i]?).map Atom.fields =
      (g[i]?).map Atom.fields := by
  refine ⟨normalize_length g, fun i => ?_⟩
  rw [← List.getElem?_map, ← List.getElem?_map, normalize_map_fields]

/-- C4 (as stated, refuted): the line `lineInf` is tagged `ATOM`, its x column parses to
`Infinity`, which is not a finite number, and yet the line contributes a record: the record
that reaches normalization has `x = Infinity`, and the record of the output has `x = NaN`. -/
theorem parsePDB_admits_infinity :
    recordType lineInf = tagATOM ∧
    xOf lineInf = JSNum.inf false ∧ (xOf lineInf).isFinite = false ∧
    (extract lineInf).atoms.map Atom.x = [JSNum.inf false] ∧
    (parsePDB lineInf).atoms.length = 1 ∧
    (parsePDB lineInf).atoms.map Atom.x = [JSNum.nan] := by
  decide!

/-- C4 (amended): for every line tagged `ATOM` or `HETATM`, the loop body adds a record
(exactly one, over both arrays) if and only if none of the three coordinate columns parses
to `NaN`, and leaves both arrays as they are otherwise; and every record that reaches
normalization has x, y and z different from `NaN` (an infinity is admitted). -/
theorem parseLine_includes_iff_not_nan (st : Groups) (line : JSString)
    (htag : recordType line = tagATOM ∨ recordType line = tagHETATM) :
    ((parseLine st line).atoms.length + (parseLine st line).hetatms.length
        = st.atoms.length + st.hetatms.length + 1
      ↔ ((xOf line).isNaN = false ∧ (yOf line).isNaN = false ∧ (zOf line).isNaN = false)) ∧
    (¬ ((xOf line).isNaN = false ∧ (yOf line).isNaN = false ∧ (zOf line).isNaN = false) →
      parseLine st line = st) ∧
    (∀ text : JSString, ∀ r ∈ (extract text).atoms ++ (extract text).hetatms,
      r.x.isNaN = false ∧ r.y.isNaN = false ∧ r.z.isNaN = false) := by
  refine ⟨?_, ?_, fun text r hr => extract_not_nan text r hr⟩
  · rw [← coordsValid_iff, parseLine_atoms, parseLine_hetatms]
    unfold pushes
    rcases htag with h | h
    · have h3 : ¬ tagATOM = tagHETATM := tagATOM_ne_tagHETATM
      by_cases hv : coordsValid line = true
      · simp [h, hv, h3]
        omega
      · simp [h, hv, h3]
    · have h3 : ¬ tagHETATM = tagATOM := tagATOM_ne_tagHETATM.symm
      by_cases hv : coordsValid line = true
      · simp [h, hv, h3]
        omega
      · simp [h, hv, h3]
  · rw [← coordsValid_iff, parseLine_eq]
    intro hv
    simp [hv]

/-- C4 (amended), witness: the first line of the example scenario. -/
theorem parseLine_includes_iff_not_nan_witness :
    (recordType line1 = tagATOM ∨ recordType line1 = tagHETATM) ∧
    (((parseLine { atoms := [], hetatms := [] } line1).atoms.length +
        (parseLine { atoms := [], hetatms := [] } line1).hetatms.length = 0 + 0 + 1
      ↔ ((xOf line1).isNaN = false ∧ (yOf line1).isNaN = false ∧ (zOf line1).isNaN = false)) ∧
    (¬ ((xOf line1).isNaN = false ∧ (yOf line1).isNaN = false ∧ (zOf line1).isNaN = false) →
      parseLine { atoms := [], hetatms := [] } line1 = { atoms := [], hetatms := [] }) ∧
    (∀ text : JSString, ∀ r ∈ (extract text).atoms ++ (extract text).hetatms,
      r.x.isNaN = false ∧ r.y.isNaN = false ∧ r.z.isNaN = false)) :=
  ⟨Or.inl (by decide),
    parseLine_includes_iff_not_nan { atoms := [], hetatms := [] } line1 (Or.inl (by decide))⟩

/-- C6: for every input text, the non-geometric fields of the `atoms` output are, in order,
the fields read from the lines tagged `ATOM` whose coordinates pass the guard, taken in
input line order; the same holds for `hetatms` and the lines tagged `HETATM`. -/
theorem parsePDB_order (text : JSString) :
    (parsePDB text).atoms.map Atom.fields =
      ((split text).filter (pushes tagATOM)).map lineFields ∧
    (parsePDB text).hetatms.map Atom.fields =
      ((split text).filter (pushes tagHETATM)).map lineFields := by
  unfold parsePDB
  simp only [normalize_map_fields, extract_atoms, extract_hetatms, List.map_map]
  exact ⟨rfl, rfl⟩

theorem filter_pushes (tag : JSString) (ls : List JSString) :
    ls.filter (pushes tag) =
      (ls.filter (fun l => decide (recordType l = tag))).filter coordsValid := by
  rw [List.filter_filter]
  apply List.filter_congr
  intro l _
  unfold pushes
  exact Bool.and_comm _ _

/-- C7: two input texts with the same subsequence of `ATOM`-tagged lines give the same
`atoms` group, whatever their other lines are; two texts with the same subsequence of
`HETATM`-tagged lines give the same `hetatms` group. -/
theorem parsePDB_group_independence (t1 t2 : JSString) :
    ((split t1).filter (fun l => decide (recordType l = tagATOM)) =
        (split t2).filter (fun l => decide (recordType l = tagATOM)) →
      (parsePDB t1).atoms = (parsePDB t2).atoms) ∧
    ((split t1).filter (fun l => decide (recordType l = tagHETATM)) =
        (split t2).filter (fun l => decide (recordType l = tagHETATM)) →
      (parsePDB t1).hetatms = (parsePDB t2).hetatms) := by
  constructor
  · intro h
    simp only [parsePDB, extract_atoms, filter_pushes, h]
  · intro h
    simp only [parsePDB, extract_hetatms, filter_pushes, h]

/-- C7, witness: a text with a heteroatom line between the two `ATOM` lines against the
text without it, and two texts that share their one `HETATM` line. -/
theorem parsePDB_group_independence_witness :
    ((split (line1 ++ [10] ++ lineHet ++ [10] ++ line2)).filter
        (fun l => decide (recordType l = tagATOM)) =
      (split (line1 ++ [10] ++ line2)).filter (fun l => decide (recordType l = tagATOM))) ∧
    (parsePDB (line1 ++ [10] ++ lineHet ++ [10] ++ line2)).atoms =
      (parsePDB (line1 ++ [10] ++ line2)).atoms ∧
    ((split (line1 ++ [10] ++ lineHet)).filter (fun l => decide (recordType l = tagHETATM)) =
      (split (lineHet ++ [10] ++ lineBare)).filter
        (fun l => decide (recordType l = tagHETATM))) ∧
    (parsePDB (line1 ++ [10] ++ lineHet)).hetatms =
      (parsePDB (lineHet ++ [10] ++ lineBare)).hetatms :=
  ⟨by decide,
    (parsePDB_group_independence (line1 ++ [10] ++ lineHet ++ [10] ++ line2)
      (line1 ++ [10] ++ line2)).1 (by decide),
    by decide,
    (parsePDB_group_independence (line1 ++ [10] ++ lineHet)
      (lineHet ++ [10] ++ lineBare)).2 (by decide)⟩

/-- C8: for the two-line example, `parsePDB` returns no heteroatom and exactly two atoms, in
line order, with coordinates `(-4, 0, 0)` and `(4, 0, 0)`, element and atom name `N`/`N` and
`C`/`CA`, residue name `ALA`, chain id `A` and residue sequence number 1; the raw
coordinates are `(10,10,10)` and `(12,10,10)`, the scale is 4 and the center `(11,10,10)`. -/
theorem parsePDB_example :
    parsePDB (line1 ++ [10] ++ line2) =
      { atoms := [
          { x := JSNum.fin (-4), y := JSNum.fin 0, z := JSNum.fin 0,
            element := utf16 "N", atomName := utf16 "N", residueName := utf16 "ALA",
            chainId := utf16 "A", residueSeq := JSNum.fin 1 },
          { x := JSNum.fin 4, y := JSNum.fin 0, z := JSNum.fin 0,
            element := utf16 "C", atomName := utf16 "CA", residueName := utf16 "ALA",
            chainId := utf16 "A", residueSeq := JSNum.fin 1 }],
        hetatms := [] } ∧
    (extract (line1 ++ [10] ++ line2)).atoms.map (fun a => (a.x, a.y, a.z)) =
      [(JSNum.fin 10, JSNum.fin 10, JSNum.fin 10), (JSNum.fin 12, JSNum.fin 10, JSNum.fin 10)] ∧
    (bounds (extract (line1 ++ [10] ++ line2)).atoms).scale = JSNum.fin 4 ∧
    (bounds (extract (line1 ++ [10] ++ line2)).atoms).centerX = JSNum.fin 11 ∧
    (bounds (extract (line1 ++ [10] ++ line2)).atoms).centerY = JSNum.fin 10 ∧
    (bounds (extract (line1 ++ [10] ++ line2)).atoms).centerZ = JSNum.fin 10 := by
  decide!

/-- C9: a line tagged `HETATM` whose coordinates pass the guard adds exactly one record to
`hetatms` and none to `atoms`, a line tagged `ATOM` whose coordinates pass the guard adds
exactly one record to `atoms` and none to `hetatms`; and for every input the length of
`atoms` is the number of such `ATOM` lines and the length of `hetatms` the number of such
`HETATM` lines. -/
theorem parsePDB_routing (text : JSString) (st : Groups) (line : JSString) :
    (pushes tagHETATM line = true →
      parseLine st line = { atoms := st.atoms, hetatms := st.hetatms ++ [recordOf line] }) ∧
    (pushes tagATOM line = true →
      parseLine st line = { atoms := st.atoms ++ [recordOf line], hetatms := st.hetatms }) ∧
    (parsePDB text).atoms.length = ((split text).filter (pushes tagATOM)).length ∧
    (parsePDB text).hetatms.length = ((split text).filter (pushes tagHETATM)).length := by
  refine ⟨?_, ?_, ?_, ?_⟩
  · intro h
    unfold pushes at h
    rw [Bool.and_eq_true, decide_eq_true_eq] at h
    rw [parseLine_eq]
    simp [h.1, h.2, tagATOM_ne_tagHETATM.symm]
  · intro h
    unfold pushes at h
    rw [Bool.and_eq_true, decide_eq_true_eq] at h
    rw [parseLine_eq]
    simp [h.1, h.2]
  · simp [parsePDB, normalize_length, extract_atoms]
  · simp [parsePDB, normalize_length, extract_hetatms]

/-- C9, witness: the heteroatom line goes to `hetatms` only, the first example line to
`atoms` only, and the three-line text has two atoms and one heteroatom. -/
theorem parsePDB_routing_witness :
    pushes tagHETATM lineHet = true ∧ pushes tagATOM line1 = true ∧
    parseLine { atoms := [], hetatms := [] } lineHet =
      { atoms := [], hetatms := [] ++ [recordOf lineHet] } ∧
    parseLine { atoms := [], hetatms := [] } line1 =
      { atoms := [] ++ [recordOf line1], hetatms := [] } ∧
    (parsePDB (line1 ++ [10] ++ lineHet ++ [10] ++ line2)).atoms.length = 2 ∧
    (parsePDB (line1 ++ [10] ++ lineHet ++ [10] ++ line2)).hetatms.length = 1 :=
  ⟨by decide, by decide,
    (parsePDB_routing [] { atoms := [], hetatms := [] } lineHet).1 (by decide),
    (parsePDB_routing [] { atoms := [], hetatms := [] } line1).2.1 (by decide),
    ((parsePDB_routing (line1 ++ [10] ++ lineHet ++ [10] ++ line2)
      { atoms := [], hetatms := [] } []).2.2.1).trans (by decide),
    ((parsePDB_routing (line1 ++ [10] ++ lineHet ++ [10] ++ line2)
      { atoms := [], hetatms := [] } []).2.2.2).trans (by decide)⟩

/-- C10: for every line tagged `ATOM` or `HETATM` whose three coordinate columns parse to
numbers, the loop body adds exactly one record, to the array of the tag, whatever the other
columns hold: the residue sequence number of the record is what `parseInt` returns (`NaN`
when the columns `[22,26)` do not parse as an integer), and its element is the empty string
when the columns `[76,78)` are blank or beyond the end of the line. -/
theorem coords_only_gate (st : Groups) (line : JSString)
    (htag : recordType line = tagATOM ∨ recordType line = tagHETATM)
    (hx : (xOf line).isNaN = false) (hy : (yOf line).isNaN = false)
    (hz : (zOf line).isNaN = false) :
    parseLine st line =
      (if recordType line = tagATOM
        then { atoms := st.atoms ++ [recordOf line], hetatms := st.hetatms }
        else { atoms := st.atoms, hetatms := st.hetatms ++ [recordOf line] }) ∧
    (parseInt (trim (substring line 22 26)) = JSNum.nan →
      (recordOf line).residueSeq = JSNum.nan) ∧
    ((∀ c ∈ substring line 76 78, isWhiteSpace c = true) → (recordOf line).element = []) ∧
    (line.length ≤ 76 → (recordOf line).element = []) := by
  have hv : coordsValid line = true := (coordsValid_iff line).2 ⟨hx, hy, hz⟩
  refine ⟨?_, fun h => h, fun h => trim_eq_nil_of_all_white _ h, fun h => ?_⟩
  · rw [parseLine_eq]
    rcases htag with h | h
    · simp [h, hv]
    · simp [h, hv, tagATOM_ne_tagHETATM.symm]
  · show trim (substring line 76 78) = []
    rw [substring_eq_nil_of_short line 76 78 h]
    rfl

/-- C10, witness: a line of 54 characters with the tag and the three coordinates only is
kept; its residue sequence number is `NaN` and its element is the empty string. -/
theorem coords_only_gate_witness :
    (recordType lineBare = tagATOM ∨ recordType lineBare = tagHETATM) ∧
    (xOf lineBare).isNaN = false ∧ (yOf lineBare).isNaN = false ∧
    (zOf lineBare).isNaN = false ∧
    parseInt (trim (substring lineBare 22 26)) = JSNum.nan ∧ lineBare.length ≤ 76 ∧
    parseLine { atoms := [], hetatms := [] } lineBare =
      { atoms := [] ++ [recordOf lineBare], hetatms := [] } ∧
    (recordOf lineBare).residueSeq = JSNum.nan ∧ (recordOf lineBare).element = [] :=
  ⟨Or.inl (by decide), by decide, by decide, by decide, by decide, by decide,
    (coords_only_gate { atoms := [], hetatms := [] } lineBare (Or.inl (by decide))
      (by decide) (by decide) (by decide)).1.trans (if_pos (by decide)),
    (coords_only_gate { atoms := [], hetatms := [] } lineBare (Or.inl (by decide))
      (by decide) (by decide) (by decide)).2.1 (by decide),
    (coords_only_gate { atoms := [], hetatms := [] } lineBare (Or.inl (by decide))
      (by decide) (by decide) (by decide)).2.2.2 (by decide)⟩

/-! ## The extrema of a finite group -/

theorem eq_fin_of_isFinite {a : JSNum} (h : a.isFinite = true) :
    a = JSNum.fin a.toRat := by
  cases a <;> simp_all [JSNum.isFinite, JSNum.toRat]

theorem jsMin_fin_left (q : ℚ) (x : JSNum) (h : x.isFinite = true) :
    JSNum.min (JSNum.fin q) x = JSNum.fin (min q x.toRat) := by
  cases x <;> simp_all [JSNum.isFinite, JSNum.toRat, JSNum.min, min_def]

theorem jsMax_fin_left (q : ℚ) (x : JSNum) (h : x.isFinite = true) :
    JSNum.max (JSNum.fin q) x = JSNum.fin (max q x.toRat) := by
  cases x <;> simp_all [JSNum.isFinite, JSNum.toRat, JSNum.max, max_def]

theorem foldl_min_fin (c : Atom → JSNum) (g : List Atom) (q : ℚ)
    (h : ∀ a ∈ g, (c a).isFinite = true) :
    g.foldl (fun m a => JSNum.min m (c a)) (JSNum.fin q) =
      JSNum.fin (lo (fun a => (c a).toRat) q g) := by
  induction g generalizing q with
  | nil => rfl
  | cons a t ih =>
    rw [List.foldl_cons, jsMin_fin_left q (c a) (h a (List.mem_cons_self _ _)),
      ih _ (fun r hr => h r (List.mem_cons_of_mem _ hr))]
    rfl

theorem foldl_max_fin (c : Atom → JSNum) (g : List Atom) (q : ℚ)
    (h : ∀ a ∈ g, (c a).isFinite = true) :
    g.foldl (fun m a => JSNum.max m (c a)) (JSNum.fin q) =
      JSNum.fin (hi (fun a => (c a).toRat) q g) := by
  induction g generalizing q with
  | nil => rfl
  | cons a t ih =>
    rw [List.foldl_cons, jsMax_fin_left q (c a) (h a (List.mem_cons_self _ _)),
      ih _ (fun r hr => h r (List.mem_cons_of_mem _ hr))]
    rfl

theorem foldl_step_minX (g : List Atom) (b : Bounds) :
    (g.foldl Bounds.step b).minX = g.foldl (fun m a => JSNum.min m a.x) b.minX := by
  induction g generalizing b with
  | nil => rfl
  | cons a t ih => rw [List.foldl_cons, ih, List.foldl_cons]; rfl

theorem foldl_step_minY (g : List Atom) (b : Bounds) :
    (g.foldl Bounds.step b).minY = g.foldl (fun m a => JSNum.min m a.y) b.minY := by
  induction g generalizing b with
  | nil => rfl
  | cons a t ih => rw [List.foldl_cons, ih, List.foldl_cons]; rfl

theorem foldl_step_minZ (g : List Atom) (b : Bounds) :
    (g.foldl Bounds.step b).minZ = g.foldl (fun m a => JSNum.min m a.z) b.minZ := by
  induction g generalizing b with
  | nil => rfl
  | cons a t ih => rw [List.foldl_cons, ih, List.foldl_cons]; rfl

theorem foldl_step_maxX (g : List Atom) (b : Bounds) :
    (g.foldl Bounds.step b).maxX = g.foldl (fun m a => JSNum.max m a.x) b.maxX := by
  induction g generalizing b with
  | nil => rfl
  | cons a t ih => rw [List.foldl_cons, ih, List.foldl_cons]; rfl

theorem foldl_step_maxY (g : List Atom) (b : Bounds) :
    (g.foldl Bounds.step b).maxY = g.foldl (fun m a => JSNum.max m a.y) b.maxY := by
  induction g generalizing b with
  | nil => rfl
  | cons a t ih => rw [List.foldl_cons, ih, List.foldl_cons]; rfl

theorem foldl_step_maxZ (g : List Atom) (b : Bounds) :
    (g.foldl Bounds.step b).maxZ = g.foldl (fun m a => JSNum.max m a.z) b.maxZ := by
  induction g generalizing b with
  | nil => rfl
  | cons a t ih => rw [List.foldl_cons, ih, List.foldl_cons]; rfl

theorem step_init (a : Atom) (h : a.Finite) :
    Bounds.step Bounds.init a =
      { minX := JSNum.fin a.qx, minY := JSNum.fin a.qy, minZ := JSNum.fin a.qz,
        maxX := JSNum.fin a.qx, maxY := JSNum.fin a.qy, maxZ := JSNum.fin a.qz } := by
  obtain ⟨hx, hy, hz⟩ := h
  unfold Bounds.step Bounds.init Atom.qx Atom.qy Atom.qz
  rw [eq_fin_of_isFinite hx, eq_fin_of_isFinite hy, eq_fin_of_isFinite hz]
  simp [JSNum.min, JSNum.max, JSNum.toRat]

theorem bounds_cons (a : Atom) (t : List Atom) (h : ∀ r ∈ a :: t, r.Finite) :
    bounds (a :: t) = (boxOf a t).toBounds := by
  have ha : a.Finite := h a (List.mem_cons_self _ _)
  have ht : ∀ r ∈ t, r.Finite := fun r hr => h r (List.mem_cons_of_mem _ hr)
  have e : ∀ b : Bounds, b = ⟨b.minX, b.minY, b.minZ, b.maxX, b.maxY, b.maxZ⟩ := fun _ => rfl
  unfold bounds
  rw [List.foldl_cons, e (List.foldl _ _ _), foldl_step_minX, foldl_step_minY, foldl_step_minZ,
    foldl_step_maxX, foldl_step_maxY, foldl_step_maxZ, step_init a ha]
  simp only []
  rw [foldl_min_fin Atom.x t _ (fun r hr => (ht r hr).1),
    foldl_min_fin Atom.y t _ (fun r hr => (ht r hr).2.1),
    foldl_min_fin Atom.z t _ (fun r hr => (ht r hr).2.2),
    foldl_max_fin Atom.x t _ (fun r hr => (ht r hr).1),
    foldl_max_fin Atom.y t _ (fun r hr => (ht r hr).2.1),
    foldl_max_fin Atom.z t _ (fun r hr => (ht r hr).2.2)]
  rfl

theorem lo_le (c : Atom → ℚ) (g : List Atom) (q : ℚ) : lo c q g ≤ q := by
  induction g generalizing q with
  | nil => exact le_refl _
  | cons a t ih => exact le_trans (ih _) (min_le_left _ _)

theorem le_hi (c : Atom → ℚ) (g : List Atom) (q : ℚ) : q ≤ hi c q g := by
  induction g generalizing q with
  | nil => exact le_refl _
  | cons a t ih => exact le_trans (le_max_left _ _) (ih _)

theorem lo_le_mem (c : Atom → ℚ) (g : List Atom) (q : ℚ) (r : Atom) (hr : r ∈ g) :
    lo c q g ≤ c r := by
  induction g generalizing q with
  | nil => cases hr
  | cons a t ih =>
    rcases List.mem_cons.1 hr with h | h
    · subst h
      exact le_trans (lo_le c t _) (min_le_right _ _)
    · exact ih _ h

theorem mem_le_hi (c : Atom → ℚ) (g : List Atom) (q : ℚ) (r : Atom) (hr : r ∈ g) :
    c r ≤ hi c q g := by
  induction g generalizing q with
  | nil => cases hr
  | cons a t ih =>
    rcases List.mem_cons.1 hr with h | h
    · subst h
      exact le_trans (le_max_right _ _) (le_hi c t _)
    · exact ih _ h

theorem lo_attained (c : Atom → ℚ) (g : List Atom) (q : ℚ) :
    lo c q g = q ∨ ∃ r ∈ g, lo c q g = c r := by
  induction g generalizing q with
  | nil => exact Or.inl rfl
  | cons a t ih =>
    rcases ih (min q (c a)) with h | ⟨r, hr, h⟩
    · rcases min_choice q (c a) with hm | hm
      · exact Or.inl (h.trans hm)
      · exact Or.inr ⟨a, List.mem_cons_self _ _, h.trans hm⟩
    · exact Or.inr ⟨r, List.mem_cons_of_mem _ hr, h⟩

theorem hi_attained (c : Atom → ℚ) (g : List Atom) (q : ℚ) :
    hi c q g = q ∨ ∃ r ∈ g, hi c q g = c r := by
  induction g generalizing q with
  | nil => exact Or.inl rfl
  | cons a t ih =>
    rcases ih (max q (c a)) with h | ⟨r, hr, h⟩
    · rcases max_choice q (c a) with hm | hm
      · exact Or.inl (h.trans hm)
      · exact Or.inr ⟨a, List.mem_cons_self _ _, h.trans hm⟩
    · exact Or.inr ⟨r, List.mem_cons_of_mem _ hr, h⟩

/-- The extrema that the loop computes on a non-empty finite group are the least and the
greatest coordinate of the group: shown here for `minX` and `maxX`. -/
theorem bounds_x_spec (a : Atom) (t : List Atom) (h : ∀ r ∈ a :: t, r.Finite) :
    (∃ r ∈ a :: t, (bounds (a :: t)).minX = r.x) ∧
    (∃ r ∈ a :: t, (bounds (a :: t)).maxX = r.x) ∧
    ∀ r ∈ a :: t, ∃ l u v : ℚ, (bounds (a :: t)).minX = JSNum.fin l ∧
      (bounds (a :: t)).maxX = JSNum.fin u ∧ r.x = JSNum.fin v ∧ l ≤ v ∧ v ≤ u := by
  have hx : ∀ r ∈ a :: t, r.x = JSNum.fin r.qx := fun r hr => eq_fin_of_isFinite (h r hr).1
  rw [bounds_cons a t h]
  refine ⟨?_, ?_, fun r hr => ⟨_, _, _, rfl, rfl, hx r hr, ?_, ?_⟩⟩
  · rcases lo_attained Atom.qx t a.qx with e | ⟨r, hr, e⟩
    · exact ⟨a, List.mem_cons_self _ _,
        (congrArg JSNum.fin e).trans (hx a (List.mem_cons_self _ _)).symm⟩
    · exact ⟨r, List.mem_cons_of_mem _ hr,
        (congrArg JSNum.fin e).trans (hx r (List.mem_cons_of_mem _ hr)).symm⟩
  · rcases hi_attained Atom.qx t a.qx with e | ⟨r, hr, e⟩
    · exact ⟨a, List.mem_cons_self _ _,
        (congrArg JSNum.fin e).trans (hx a (List.mem_cons_self _ _)).symm⟩
    · exact ⟨r, List.mem_cons_of_mem _ hr,
        (congrArg JSNum.fin e).trans (hx r (List.mem_cons_of_mem _ hr)).symm⟩
  · rcases List.mem_cons.1 hr with e | e
    · rw [e]; exact lo_le Atom.qx t a.qx
    · exact lo_le_mem Atom.qx t a.qx r e
  · rcases List.mem_cons.1 hr with e | e
    · rw [e]; exact le_hi Atom.qx t a.qx
    · exact mem_le_hi Atom.qx t a.qx r e

theorem lo_map_mono (f : ℚ → ℚ) (hf : Monotone f) (c c2 : Atom → ℚ) (m : Atom → Atom)
    (g : List Atom) (q : ℚ) (h : ∀ r ∈ g, c2 (m r) = f (c r)) :
    lo c2 (f q) (g.map m) = f (lo c q g) := by
  induction g generalizing q with
  | nil => rfl
  | cons a t ih =>
    show lo c2 (min (f q) (c2 (m a))) (t.map m) = f (lo c (min q (c a)) t)
    rw [h a (List.mem_cons_self _ _), ← hf.map_min]
    exact ih _ (fun r hr => h r (List.mem_cons_of_mem _ hr))

theorem hi_map_mono (f : ℚ → ℚ) (hf : Monotone f) (c c2 : Atom → ℚ) (m : Atom → Atom)
    (g : List Atom) (q : ℚ) (h : ∀ r ∈ g, c2 (m r) = f (c r)) :
    hi c2 (f q) (g.map m) = f (hi c q g) := by
  induction g generalizing q with
  | nil => rfl
  | cons a t ih =>
    show hi c2 (max (f q) (c2 (m a))) (t.map m) = f (hi c (max q (c a)) t)
    rw [h a (List.mem_cons_self _ _), ← hf.map_max]
    exact ih _ (fun r hr => h r (List.mem_cons_of_mem _ hr))

/-! ## The locals of the normalizer on finite extrema -/

theorem Box.size_nonneg (B : Box) (hx : B.lx ≤ B.hx) : 0 ≤ B.size :=
  le_trans (le_trans (sub_nonneg.2 hx) (le_max_left _ _)) (le_max_left _ _)

theorem Box.scale_pos (B : Box) : 0 < B.scale := by
  unfold Box.scale
  split
  · positivity
  · exact one_pos

theorem toBounds_maxSize (B : Box) : B.toBounds.maxSize = JSNum.fin B.size := by
  simp [Bounds.maxSize, Bounds.sizeX, Bounds.sizeY, Bounds.sizeZ, Box.toBounds, JSNum.max3,
    JSNum.sub, JSNum.max, Box.size, max_def]

theorem toBounds_scale (B : Box) : B.toBounds.scale = JSNum.fin B.scale := by
  unfold Bounds.scale Box.scale
  rw [toBounds_maxSize]
  by_cases h : 0 < B.size
  · have h0 : B.size ≠ 0 := ne_of_gt h
    simp [JSNum.gt, JSNum.div, h, h0]
  · simp [JSNum.gt, h]

theorem toBounds_centerX (B : Box) : B.toBounds.centerX = JSNum.fin ((B.lx + B.hx) / 2) := by
  simp [Bounds.centerX, Box.toBounds, JSNum.add, JSNum.div]

theorem toBounds_centerY (B : Box) : B.toBounds.centerY = JSNum.fin ((B.ly + B.hy) / 2) := by
  simp [Bounds.centerY, Box.toBounds, JSNum.add, JSNum.div]

theorem toBounds_centerZ (B : Box) : B.toBounds.centerZ = JSNum.fin ((B.lz + B.hz) / 2) := by
  simp [Bounds.centerZ, Box.toBounds, JSNum.add, JSNum.div]

theorem moveAtom_toBounds (B : Box) (r : Atom) (h : r.Finite) :
    (moveAtom B.toBounds r).x = JSNum.fin ((r.qx - (B.lx + B.hx) / 2) * B.scale) ∧
    (moveAtom B.toBounds r).y = JSNum.fin ((r.qy - (B.ly + B.hy) / 2) * B.scale) ∧
    (moveAtom B.toBounds r).z = JSNum.fin ((r.qz - (B.lz + B.hz) / 2) * B.scale) := by
  obtain ⟨hx, hy, hz⟩ := h
  unfold moveAtom Atom.qx Atom.qy Atom.qz
  rw [toBounds_centerX, toBounds_centerY, toBounds_centerZ, toBounds_scale]
  refine ⟨?_, ?_, ?_⟩
  · show JSNum.mul (JSNum.sub r.x _) _ = _
    rw [eq_fin_of_isFinite hx]; rfl
  · show JSNum.mul (JSNum.sub r.y _) _ = _
    rw [eq_fin_of_isFinite hy]; rfl
  · show JSNum.mul (JSNum.sub r.z _) _ = _
    rw [eq_fin_of_isFinite hz]; rfl

theorem moveAtom_finite (B : Box) (r : Atom) (h : r.Finite) : (moveAtom B.toBounds r).Finite := by
  obtain ⟨hx, hy, hz⟩ := moveAtom_toBounds B r h
  unfold Atom.Finite
  rw [hx, hy, hz]
  exact ⟨rfl, rfl, rfl⟩

theorem normalize_cons (a : Atom) (t : List Atom) (h : ∀ r ∈ a :: t, r.Finite) :
    normalizeCoordinatesForAtoms (a :: t) = (a :: t).map (moveAtom (boxOf a t).toBounds) := by
  unfold normalizeCoordinatesForAtoms
  rw [bounds_cons a t h]
  simp

theorem shift_mono (c s : ℚ) (hs : 0 < s) : Monotone (fun x : ℚ => (x - c) * s) :=
  fun _ _ hxy => mul_le_mul_of_nonneg_right (sub_le_sub_right hxy c) (le_of_lt hs)

theorem boxOf_moved (a : Atom) (t : List Atom) (h : ∀ r ∈ a :: t, r.Finite) :
    boxOf (moveAtom (boxOf a t).toBounds a) (t.map (moveAtom (boxOf a t).toBounds)) =
      (boxOf a t).moved := by
  have ha : a.Finite := h a (List.mem_cons_self _ _)
  have ht : ∀ r ∈ t, r.Finite := fun r hr => h r (List.mem_cons_of_mem _ hr)
  have hs := (boxOf a t).scale_pos
  have qx : ∀ r : Atom, r.Finite → (moveAtom (boxOf a t).toBounds r).qx =
      (fun x : ℚ => (x - ((boxOf a t).lx + (boxOf a t).hx) / 2) * (boxOf a t).scale) r.qx :=
    fun r hr => by
      show JSNum.toRat (moveAtom _ r).x = _
      rw [(moveAtom_toBounds _ r hr).1]; rfl
  have qy : ∀ r : Atom, r.Finite → (moveAtom (boxOf a t).toBounds r).qy =
      (fun x : ℚ => (x - ((boxOf a t).ly + (boxOf a t).hy) / 2) * (boxOf a t).scale) r.qy :=
    fun r hr => by
      show JSNum.toRat (moveAtom _ r).y = _
      rw [(moveAtom_toBounds _ r hr).2.1]; rfl
  have qz : ∀ r : Atom, r.Finite → (moveAtom (boxOf a t).toBounds r).qz =
      (fun x : ℚ => (x - ((boxOf a t).lz + (boxOf a t).hz) / 2) * (boxOf a t).scale) r.qz :=
    fun r hr => by
      show JSNum.toRat (moveAtom _ r).z = _
      rw [(moveAtom_toBounds _ r hr).2.2]; rfl
  show Box.mk _ _ _ _ _ _ = Box.mk _ _ _ _ _ _
  rw [qx a ha, qy a ha, qz a ha,
    lo_map_mono _ (shift_mono _ _ hs) Atom.qx Atom.qx _ t _ (fun r hr => qx r (ht r hr)),
    lo_map_mono _ (shift_mono _ _ hs) Atom.qy Atom.qy _ t _ (fun r hr => qy r (ht r hr)),
    lo_map_mono _ (shift_mono _ _ hs) Atom.qz Atom.qz _ t _ (fun r hr => qz r (ht r hr)),
    hi_map_mono _ (shift_mono _ _ hs) Atom.qx Atom.qx _ t _ (fun r hr => qx r (ht r hr)),
    hi_map_mono _ (shift_mono _ _ hs) Atom.qy Atom.qy _ t _ (fun r hr => qy r (ht r hr)),
    hi_map_mono _ (shift_mono _ _ hs) Atom.qz Atom.qz _ t _ (fun r hr => qz r (ht r hr))]
  rfl

theorem bounds_normalize (a : Atom) (t : List Atom) (h : ∀ r ∈ a :: t, r.Finite) :
    bounds (normalizeCoordinatesForAtoms (a :: t)) = (boxOf a t).moved.toBounds := by
  rw [normalize_cons a t h, List.map_cons, bounds_cons, boxOf_moved a t h]
  intro r hr
  rw [← List.map_cons, List.mem_map] at hr
  obtain ⟨r0, hr0, rfl⟩ := hr
  exact moveAtom_finite _ r0 (h r0 hr0)

theorem Box.moved_size (B : Box) : B.moved.size = B.size * B.scale := by
  have hs : 0 ≤ B.scale := le_of_lt B.scale_pos
  unfold Box.size Box.moved
  simp only []
  rw [max_mul_of_nonneg _ _ hs, max_mul_of_nonneg _ _ hs]
  congr 1
  · congr 1 <;> ring
  · ring

theorem size_pos_of_gt (B : Box) (h : JSNum.gt B.toBounds.maxSize (JSNum.fin 0) = true) :
    0 < B.size := by
  rw [toBounds_maxSize] at h
  simpa [JSNum.gt] using h

/-! ## Claims about the geometry of the normalizer -/

/-- C1 (as stated, refuted): the group that `parsePDB` builds from the lines `lineInf` and
`line1` has two records and largest extent `Infinity`, which is positive, yet the largest
extent of the output of `normalizeCoordinatesForAtoms` is `NaN`, not 8. -/
theorem normalize_extent_infinite :
    groupInfTwo.length = 2 ∧
    groupInfTwo.map (fun a => (a.x, a.y, a.z)) =
      [(JSNum.inf false, JSNum.fin 10, JSNum.fin 10),
        (JSNum.fin 10, JSNum.fin 10, JSNum.fin 10)] ∧
    (bounds groupInfTwo).maxSize = JSNum.inf false ∧
    JSNum.gt (bounds groupInfTwo).maxSize (JSNum.fin 0) = true ∧
    (bounds (normalizeCoordinatesForAtoms groupInfTwo)).maxSize = JSNum.nan ∧
    (bounds (normalizeCoordinatesForAtoms groupInfTwo)).maxSize ≠ JSNum.fin 8 := by
  decide!

/-- C1 (amended): for every non-empty record group with finite coordinates whose largest
bounding-box extent is positive, the largest bounding-box extent of the output of
`normalizeCoordinatesForAtoms` is exactly 8, in exact arithmetic. -/
theorem normalize_extent_eq_eight (g : List Atom) (hne : g ≠ []) (hfin : ∀ r ∈ g, r.Finite)
    (hpos : JSNum.gt (bounds g).maxSize (JSNum.fin 0) = true) :
    (bounds (normalizeCoordinatesForAtoms g)).maxSize = JSNum.fin 8 := by
  cases g with
  | nil => exact absurd rfl hne
  | cons a t =>
    rw [bounds_cons a t hfin] at hpos
    have hsz := size_pos_of_gt _ hpos
    rw [bounds_normalize a t hfin, toBounds_maxSize, Box.moved_size]
    congr 1
    unfold Box.scale
    rw [if_pos hsz]
    field_simp

/-- C1 (amended), witness: the two points `(0,0,0)` and `(2,1,0)`. -/
theorem normalize_extent_eq_eight_witness :
    [point 0 0 0, point 2 1 0] ≠ [] ∧ (∀ r ∈ [point 0 0 0, point 2 1 0], r.Finite) ∧
    JSNum.gt (bounds [point 0 0 0, point 2 1 0]).maxSize (JSNum.fin 0) = true ∧
    (bounds (normalizeCoordinatesForAtoms [point 0 0 0, point 2 1 0])).maxSize = JSNum.fin 8 :=
  ⟨List.cons_ne_nil _ _, by decide, by decide!,
    normalize_extent_eq_eight [point 0 0 0, point 2 1 0] (List.cons_ne_nil _ _) (by decide)
      (by decide!)⟩

/-- C2 (as stated, refuted): the group that `parsePDB` builds from the line `lineHetInf` has
one record, `(1, 2, Infinity)`; in the output the least and the greatest z coordinate are
`NaN`, so is their sum, and the center of the bounding box is `(0, 0, NaN)`. -/
theorem normalize_center_infinite :
    groupHetInf.map (fun a => (a.x, a.y, a.z)) =
      [(JSNum.fin 1, JSNum.fin 2, JSNum.inf false)] ∧
    JSNum.add (bounds (normalizeCoordinatesForAtoms groupHetInf)).minZ
      (bounds (normalizeCoordinatesForAtoms groupHetInf)).maxZ = JSNum.nan ∧
    JSNum.add (bounds (normalizeCoordinatesForAtoms groupHetInf)).minZ
      (bounds (normalizeCoordinatesForAtoms groupHetInf)).maxZ ≠ JSNum.fin 0 ∧
    (bounds (normalizeCoordinatesForAtoms groupHetInf)).centerZ = JSNum.nan := by
  decide!

/-- C2 (amended): for every non-empty record group with finite coordinates, the output of
`normalizeCoordinatesForAtoms` is centered at the origin: on each axis the least and the
greatest output coordinate sum to 0, and the center of the bounding box of the output is
`(0,0,0)`, in exact arithmetic. -/
theorem normalize_centered (g : List Atom) (hne : g ≠ []) (hfin : ∀ r ∈ g, r.Finite) :
    JSNum.add (bounds (normalizeCoordinatesForAtoms g)).minX
      (bounds (normalizeCoordinatesForAtoms g)).maxX = JSNum.fin 0 ∧
    JSNum.add (bounds (normalizeCoordinatesForAtoms g)).minY
      (bounds (normalizeCoordinatesForAtoms g)).maxY = JSNum.fin 0 ∧
    JSNum.add (bounds (normalizeCoordinatesForAtoms g)).minZ
      (bounds (normalizeCoordinatesForAtoms g)).maxZ = JSNum.fin 0 ∧
    (bounds (normalizeCoordinatesForAtoms g)).centerX = JSNum.fin 0 ∧
    (bounds (normalizeCoordinatesForAtoms g)).centerY = JSNum.fin 0 ∧
    (bounds (normalizeCoordinatesForAtoms g)).centerZ = JSNum.fin 0 := by
  cases g with
  | nil => exact absurd rfl hne
  | cons a t =>
    rw [bounds_normalize a t hfin, toBounds_centerX, toBounds_centerY, toBounds_centerZ]
    have e : ∀ l h s : ℚ, (l - (l + h) / 2) * s + (h - (l + h) / 2) * s = 0 :=
      fun l h s => by ring
    have e2 : ∀ l h s : ℚ, ((l - (l + h) / 2) * s + (h - (l + h) / 2) * s) / 2 = 0 :=
      fun l h s => by ring
    exact ⟨congrArg JSNum.fin (e _ _ _), congrArg JSNum.fin (e _ _ _),
      congrArg JSNum.fin (e _ _ _), congrArg JSNum.fin (e2 _ _ _),
      congrArg JSNum.fin (e2 _ _ _), congrArg JSNum.fin (e2 _ _ _)⟩

/-- C2 (amended), witness: the three points `(1,5,-2)`, `(4,5,0)` and `(2,7,1)`. -/
theorem normalize_centered_witness :
    [point 1 5 (-2), point 4 5 0, point 2 7 1] ≠ [] ∧
    (∀ r ∈ [point 1 5 (-2), point 4 5 0, point 2 7 1], r.Finite) ∧
    JSNum.add
      (bounds (normalizeCoordinatesForAtoms [point 1 5 (-2), point 4 5 0, point 2 7 1])).minX
      (bounds (normalizeCoordinatesForAtoms [point 1 5 (-2), point 4 5 0, point 2 7 1])).maxX
      = JSNum.fin 0 :=
  ⟨List.cons_ne_nil _ _, by decide,
    (normalize_centered [point 1 5 (-2), point 4 5 0, point 2 7 1] (List.cons_ne_nil _ _)
      (by decide)).1⟩

theorem parseLine_of_not_valid (st : Groups) (line : JSString) (h : coordsValid line = false) :
    parseLine st line = st := by
  rw [parseLine_eq]
  simp [h]

/-- C11: the model of `parsePDB` is a total function (no input raises), and for every line
of at most 46 characters, in particular every such line tagged `ATOM` or `HETATM`, the z
column `[46,54)` is the empty string, it parses to `NaN`, and the loop body leaves both
arrays as they are. -/
theorem short_line_dropped (st : Groups) (line : JSString) (hlen : line.length ≤ 46) :
    substring line 46 54 = [] ∧ zOf line = JSNum.nan ∧ parseLine st line = st ∧
    (parseLine st line).atoms = st.atoms ∧ (parseLine st line).hetatms = st.hetatms := by
  have hz : zOf line = JSNum.nan := by
    unfold zOf
    rw [substring_eq_nil_of_short line 46 54 hlen]
    rfl
  have hv : coordsValid line = false := by
    unfold coordsValid
    rw [hz]
    simp [JSNum.isNaN]
  have hst := parseLine_of_not_valid st line hv
  exact ⟨substring_eq_nil_of_short line 46 54 hlen, hz, hst, by rw [hst], by rw [hst]⟩

/-- C11, witness: a line of 46 characters with the tag `ATOM`, and x and y columns that
parse. -/
theorem short_line_dropped_witness :
    (recordType lineShort = tagATOM ∨ recordType lineShort = tagHETATM) ∧
    lineShort.length ≤ 46 ∧ (xOf lineShort).isNaN = false ∧ (yOf lineShort).isNaN = false ∧
    parseLine { atoms := [], hetatms := [] } lineShort = { atoms := [], hetatms := [] } ∧
    parsePDB lineShort = { atoms := [], hetatms := [] } :=
  ⟨Or.inl (by decide), by decide, by decide, by decide,
    (short_line_dropped { atoms := [], hetatms := [] } lineShort (by decide)).2.2.1,
    by decide⟩

/-- A column that starts with a number is read up to the end of the number: the x column
` 12.0abc` parses to 12 and the line is kept. -/
theorem leading_number_kept :
    substring lineLeading 30 38 = utf16 " 12.0abc" ∧ xOf lineLeading = JSNum.fin 12 ∧
    (parsePDB lineLeading).atoms.length = 1 := by
  decide!

/-- C14: normalizing the empty group returns the empty group; the early return is taken and
nothing is divided. -/
theorem normalize_nil : normalizeCoordinatesForAtoms [] = [] := rfl

/-- C15: `parsePDB` on the empty string returns `atoms = []` and `hetatms = []`: splitting
gives the single empty line, whose tag is the empty string. -/
theorem parsePDB_empty :
    split (utf16 "") = [[]] ∧ recordType [] = [] ∧
    parsePDB (utf16 "") = { atoms := [], hetatms := [] } := by
  decide

/-! ## Splitting into lines -/

theorem splitAux_no_newline (s cur : List Nat) (h : 10 ∉ s) :
    splitAux s cur = [cur.reverse ++ s] := by
  induction s generalizing cur with
  | nil => simp [splitAux]
  | cons c cs ih =>
    have hc : c ≠ 10 := fun e => h (e ▸ List.mem_cons_self _ _)
    have hcs : 10 ∉ cs := fun e => h (List.mem_cons_of_mem _ e)
    rw [splitAux, if_neg hc, ih _ hcs]
    simp

theorem splitAux_line (s1 s2 cur : List Nat) (h : 10 ∉ s1) :
    splitAux (s1 ++ 10 :: s2) cur = (cur.reverse ++ s1) :: splitAux s2 [] := by
  induction s1 generalizing cur with
  | nil => simp [splitAux]
  | cons c cs ih =>
    have hc : c ≠ 10 := fun e => h (e ▸ List.mem_cons_self _ _)
    have hcs : 10 ∉ cs := fun e => h (List.mem_cons_of_mem _ e)
    rw [List.cons_append, splitAux, if_neg hc, ih _ hcs]
    simp

theorem splitAux_mem_no_newline (s cur : List Nat) (hcur : 10 ∉ cur) :
    ∀ l ∈ splitAux s cur, 10 ∉ l := by
  induction s generalizing cur with
  | nil =>
    intro l hl
    rw [splitAux, List.mem_singleton] at hl
    rw [hl, List.mem_reverse]
    exact hcur
  | cons c cs ih =>
    intro l hl
    rw [splitAux] at hl
    by_cases hc : c = 10
    · rw [if_pos hc, List.mem_cons] at hl
      rcases hl with e | e
      · rw [e, List.mem_reverse]
        exact hcur
      · exact ih [] (List.not_mem_nil _) l e
    · rw [if_neg hc] at hl
      refine ih (c :: cur) ?_ l hl
      intro e
      rcases List.mem_cons.1 e with e1 | e1
      · exact hc e1.symm
      · exact hcur e1

theorem split_no_newline (s : JSString) (h : 10 ∉ s) : split s = [s] := by
  unfold split
  rw [splitAux_no_newline s [] h]
  rfl

theorem split_mem_no_newline (s : JSString) : ∀ l ∈ split s, 10 ∉ l :=
  splitAux_mem_no_newline s [] (List.not_mem_nil _)

theorem split_ne_nil (s : JSString) : split s ≠ [] := by
  unfold split
  cases s with
  | nil => simp [splitAux]
  | cons c cs =>
    rw [splitAux]
    split
    · exact List.cons_ne_nil _ _
    · generalize [c] = cur
      induction cs generalizing cur with
      | nil => simp [splitAux]
      | cons d ds ih =>
        rw [splitAux]
        split
        · exact List.cons_ne_nil _ _
        · exact ih _

theorem split_joinLines (ls : List JSString) (hne : ls ≠ []) (h : ∀ l ∈ ls, 10 ∉ l) :
    split (joinLines ls) = ls := by
  induction ls with
  | nil => exact absurd rfl hne
  | cons l t ih =>
    cases t with
    | nil => exact split_no_newline l (h l (List.mem_cons_self _ _))
    | cons m ms =>
      have ih2 := ih (List.cons_ne_nil _ _) (fun x hx => h x (List.mem_cons_of_mem _ hx))
      unfold split at ih2 ⊢
      rw [joinLines, splitAux_line l _ [] (h l (List.mem_cons_self _ _)), ih2]
      rfl

theorem substring_append (p r : JSString) (a b : Nat) (ha : p.length ≤ a) :
    substring (p ++ r) a b = substring r (a - p.length) (b - p.length) := by
  unfold substring
  rw [List.take_append_eq_append_take, List.drop_append_eq_append_drop]
  have h1 : List.drop a (List.take b p) = [] := by
    rw [List.drop_eq_nil_iff, List.length_take]
    omega
  rw [h1, List.nil_append, List.length_take]
  by_cases hb : p.length ≤ b
  · rw [min_eq_right hb]
  · have h2 : List.take (b - p.length) r = [] := by
      rw [show b - p.length = 0 by omega]
      rfl
    rw [h2]
    simp

theorem recordType_append (p r : JSString) (hp : p.length = 6) :
    recordType (p ++ r) = trim p := by
  unfold recordType substring
  rw [List.drop_zero, ← hp, List.take_left]

theorem recordOf_append (p q r : JSString) (hp : p.length = 6) (hq : q.length = 6) :
    recordOf (p ++ r) = recordOf (q ++ r) ∧ coordsValid (p ++ r) = coordsValid (q ++ r) := by
  have e : ∀ a b : Nat, 6 ≤ a → substring (p ++ r) a b = substring (q ++ r) a b :=
    fun a b h => by
      rw [substring_append p r a b (by omega), substring_append q r a b (by omega), hp, hq]
  unfold coordsValid recordOf xOf yOf zOf
  rw [e 30 38 (by decide), e 38 46 (by decide), e 46 54 (by decide), e 76 78 (by decide),
    e 12 16 (by decide), e 17 20 (by decide), e 21 22 (by decide), e 22 26 (by decide)]
  exact ⟨rfl, rfl⟩

theorem pushes_false_of_tag_ne (tag : JSString) (line : JSString)
    (h : recordType line ≠ tag) : pushes tag line = false := by
  unfold pushes
  simp [h]

theorem extract_single (line : JSString) (h : 10 ∉ line) :
    (extract line).atoms = (if pushes tagATOM line then [recordOf line] else []) ∧
    (extract line).hetatms = (if pushes tagHETATM line then [recordOf line] else []) := by
  rw [extract_atoms, extract_hetatms, split_no_newline line h]
  constructor
  · by_cases hp : pushes tagATOM line = true <;> simp [hp]
  · by_cases hp : pushes tagHETATM line = true <;> simp [hp]

/-! ## Claims about tags -/

/-- C12: for every input text and every line `L` without a newline whose trimmed first six
characters are neither `ATOM` nor `HETATM`, the text with `L` inserted at any line position
has the lines of the text with `L` among them at that position, and `parsePDB` returns for it
the two groups it returns for the text; the tag is compared after trimming, so the prefixes
`ATOM  ` and ` ATOM ` have the tag `ATOM` and `ATOMS ` has neither tag. -/
theorem untagged_line_ignored (text L : JSString) (i : Nat) (hnl : 10 ∉ L)
    (hA : recordType L ≠ tagATOM) (hH : recordType L ≠ tagHETATM) :
    split (insertLine text L i) = (split text).take i ++ L :: (split text).drop i ∧
    parsePDB (insertLine text L i) = parsePDB text ∧
    recordType (utf16 "ATOM  ") = tagATOM ∧ recordType (utf16 " ATOM ") = tagATOM ∧
    recordType (utf16 "ATOMS ") ≠ tagATOM ∧ recordType (utf16 "ATOMS ") ≠ tagHETATM := by
  have hs : split (insertLine text L i) = (split text).take i ++ L :: (split text).drop i := by
    unfold insertLine
    apply split_joinLines
    · simp
    · intro l hl
      rcases List.mem_append.1 hl with h1 | h1
      · exact split_mem_no_newline text l (List.mem_of_mem_take h1)
      · rcases List.mem_cons.1 h1 with h2 | h2
        · rw [h2]
          exact hnl
        · exact split_mem_no_newline text l (List.mem_of_mem_drop h2)
  have hf : ∀ tag : JSString, recordType L ≠ tag →
      ((split text).take i ++ L :: (split text).drop i).filter (pushes tag) =
        (split text).filter (pushes tag) := by
    intro tag ht
    rw [List.filter_append, List.filter_cons, pushes_false_of_tag_ne tag L ht]
    simp only [Bool.false_eq_true, if_false]
    rw [← List.filter_append, List.take_append_drop]
  refine ⟨hs, ?_, by decide, by decide, by decide, by decide⟩
  unfold parsePDB
  rw [extract_atoms, extract_hetatms, extract_atoms, extract_hetatms, hs, hf tagATOM hA,
    hf tagHETATM hH]

/-- C12, witness: a `REMARK` line inserted between the two lines of the example scenario. -/
theorem untagged_line_ignored_witness :
    10 ∉ lineRemark ∧ recordType lineRemark ≠ tagATOM ∧ recordType lineRemark ≠ tagHETATM ∧
    insertLine (line1 ++ [10] ++ line2) lineRemark 1 =
      line1 ++ [10] ++ lineRemark ++ [10] ++ line2 ∧
    parsePDB (insertLine (line1 ++ [10] ++ line2) lineRemark 1) =
      parsePDB (line1 ++ [10] ++ line2) :=
  ⟨by decide, by decide, by decide, by decide!,
    (untagged_line_ignored (line1 ++ [10] ++ line2) lineRemark 1 (by decide) (by decide)
      (by decide)).2.1⟩

/-- C19: for every string `r` without a newline, the `atoms` group of `parsePDB` on `ATOM  `
followed by `r` is the `hetatms` group of `parsePDB` on `HETATM` followed by `r`, and the
`hetatms` group of the first and the `atoms` group of the second are empty. -/
theorem branches_agree (r : JSString) (hnl : 10 ∉ r) :
    (parsePDB (utf16 "ATOM  " ++ r)).atoms = (parsePDB (utf16 "HETATM" ++ r)).hetatms ∧
    (parsePDB (utf16 "ATOM  " ++ r)).hetatms = [] ∧
    (parsePDB (utf16 "HETATM" ++ r)).atoms = [] := by
  have hA : 10 ∉ utf16 "ATOM  " ++ r := by
    intro h
    rcases List.mem_append.1 h with h1 | h1
    · exact absurd h1 (by decide)
    · exact hnl h1
  have hH : 10 ∉ utf16 "HETATM" ++ r := by
    intro h
    rcases List.mem_append.1 h with h1 | h1
    · exact absurd h1 (by decide)
    · exact hnl h1
  have tA : recordType (utf16 "ATOM  " ++ r) = tagATOM :=
    (recordType_append _ r (by decide)).trans (by decide)
  have tH : recordType (utf16 "HETATM" ++ r) = tagHETATM :=
    (recordType_append _ r (by decide)).trans (by decide)
  obtain ⟨hrec, hval⟩ := recordOf_append (utf16 "ATOM  ") (utf16 "HETATM") r (by decide)
    (by decide)
  have pAA : pushes tagATOM (utf16 "ATOM  " ++ r) = coordsValid (utf16 "ATOM  " ++ r) := by
    unfold pushes
    simp [tA]
  have pHH : pushes tagHETATM (utf16 "HETATM" ++ r) = coordsValid (utf16 "HETATM" ++ r) := by
    unfold pushes
    simp [tH]
  have pAH : pushes tagHETATM (utf16 "ATOM  " ++ r) = false :=
    pushes_false_of_tag_ne _ _ (by rw [tA]; exact tagATOM_ne_tagHETATM)
  have pHA : pushes tagATOM (utf16 "HETATM" ++ r) = false :=
    pushes_false_of_tag_ne _ _ (by rw [tH]; exact tagATOM_ne_tagHETATM.symm)
  unfold parsePDB
  simp only []
  rw [(extract_single _ hA).1, (extract_single _ hA).2, (extract_single _ hH).1,
    (extract_single _ hH).2, pAA, pHH, pAH, pHA, hrec, hval]
  exact ⟨rfl, rfl, rfl⟩

/-- C19, witness: what follows the tag in the first line of the example scenario. -/
theorem branches_agree_witness :
    10 ∉ restOfLine1 ∧ utf16 "ATOM  " ++ restOfLine1 = line1 ∧
    (parsePDB (utf16 "ATOM  " ++ restOfLine1)).atoms.length = 1 ∧
    (parsePDB (utf16 "ATOM  " ++ restOfLine1)).atoms =
      (parsePDB (utf16 "HETATM" ++ restOfLine1)).hetatms ∧
    (parsePDB (utf16 "ATOM  " ++ restOfLine1)).hetatms = [] ∧
    (parsePDB (utf16 "HETATM" ++ restOfLine1)).atoms = [] :=
  ⟨by decide, by decide, by decide, branches_agree restOfLine1 (by decide)⟩

/-! ## Claims about the image of the normalizer -/

theorem scaled_within (l h q M : ℚ) (hl : l ≤ q) (hh : q ≤ h) (hM : h - l ≤ M) :
    -4 ≤ (q - (l + h) / 2) * (if 0 < M then 8 / M else 1) ∧
    (q - (l + h) / 2) * (if 0 < M then 8 / M else 1) ≤ 4 := by
  by_cases hp : 0 < M
  · rw [if_pos hp, ← mul_div_assoc]
    constructor
    · rw [le_div_iff₀ hp]
      linarith
    · rw [div_le_iff₀ hp]
      linarith
  · rw [if_neg hp, mul_one]
    constructor <;> linarith

theorem boxOf_contains (a : Atom) (t : List Atom) (r : Atom) (hr : r ∈ a :: t) :
    ((boxOf a t).lx ≤ r.qx ∧ r.qx ≤ (boxOf a t).hx) ∧
    ((boxOf a t).ly ≤ r.qy ∧ r.qy ≤ (boxOf a t).hy) ∧
    ((boxOf a t).lz ≤ r.qz ∧ r.qz ≤ (boxOf a t).hz) := by
  rcases List.mem_cons.1 hr with e | e
  · rw [e]
    exact ⟨⟨lo_le _ t _, le_hi _ t _⟩, ⟨lo_le _ t _, le_hi _ t _⟩, ⟨lo_le _ t _, le_hi _ t _⟩⟩
  · exact ⟨⟨lo_le_mem _ t _ r e, mem_le_hi _ t _ r e⟩,
      ⟨lo_le_mem _ t _ r e, mem_le_hi _ t _ r e⟩, ⟨lo_le_mem _ t _ r e, mem_le_hi _ t _ r e⟩⟩

theorem Box.extent_le_size (B : Box) :
    B.hx - B.lx ≤ B.size ∧ B.hy - B.ly ≤ B.size ∧ B.hz - B.lz ≤ B.size :=
  ⟨le_trans (le_max_left _ _) (le_max_left _ _), le_trans (le_max_right _ _) (le_max_left _ _),
    le_max_right _ _⟩

/-- C16: for every non-empty record group with finite coordinates, every record of the
output of `normalizeCoordinatesForAtoms` has finite coordinates between -4 and 4 on each
axis, in exact arithmetic. -/
theorem normalize_within_cube (g : List Atom) (hne : g ≠ []) (hfin : ∀ r ∈ g, r.Finite) :
    ∀ r ∈ normalizeCoordinatesForAtoms g, ∃ x y z : ℚ,
      r.x = JSNum.fin x ∧ r.y = JSNum.fin y ∧ r.z = JSNum.fin z ∧
      (-4 ≤ x ∧ x ≤ 4) ∧ (-4 ≤ y ∧ y ≤ 4) ∧ (-4 ≤ z ∧ z ≤ 4) := by
  cases g with
  | nil => exact absurd rfl hne
  | cons a t =>
    intro r hr
    rw [normalize_cons a t hfin, List.mem_map] at hr
    obtain ⟨r0, hr0, rfl⟩ := hr
    obtain ⟨mx, my, mz⟩ := moveAtom_toBounds (boxOf a t) r0 (hfin r0 hr0)
    obtain ⟨⟨x1, x2⟩, ⟨y1, y2⟩, ⟨z1, z2⟩⟩ := boxOf_contains a t r0 hr0
    obtain ⟨ex, ey, ez⟩ := (boxOf a t).extent_le_size
    exact ⟨_, _, _, mx, my, mz, scaled_within _ _ _ _ x1 x2 ex, scaled_within _ _ _ _ y1 y2 ey,
      scaled_within _ _ _ _ z1 z2 ez⟩

/-- C16, witness: the three points `(1,5,-2)`, `(4,5,0)` and `(2,7,1)`. -/
theorem normalize_within_cube_witness :
    [point 1 5 (-2), point 4 5 0, point 2 7 1] ≠ [] ∧
    (∀ r ∈ [point 1 5 (-2), point 4 5 0, point 2 7 1], r.Finite) ∧
    (normalizeCoordinatesForAtoms [point 1 5 (-2), point 4 5 0, point 2 7 1]).length = 3 ∧
    ∀ r ∈ normalizeCoordinatesForAtoms [point 1 5 (-2), point 4 5 0, point 2 7 1],
      ∃ x y z : ℚ, r.x = JSNum.fin x ∧ r.y = JSNum.fin y ∧ r.z = JSNum.fin z ∧
        (-4 ≤ x ∧ x ≤ 4) ∧ (-4 ≤ y ∧ y ≤ 4) ∧ (-4 ≤ z ∧ z ≤ 4) :=
  ⟨List.cons_ne_nil _ _, by decide, rfl,
    normalize_within_cube [point 1 5 (-2), point 4 5 0, point 2 7 1] (List.cons_ne_nil _ _)
      (by decide)⟩

theorem Box.moved_scale (B : Box) : B.moved.scale = 1 := by
  have hm := B.moved_size
  unfold Box.scale at hm ⊢
  by_cases hp : 0 < B.size
  · rw [if_pos hp] at hm
    have h8 : B.moved.size = 8 := by
      rw [hm]
      field_simp
    rw [h8]
    norm_num
  · rw [if_neg hp, mul_one] at hm
    rw [hm, if_neg hp]

theorem Box.moved_center (B : Box) :
    (B.moved.lx + B.moved.hx) / 2 = 0 ∧ (B.moved.ly + B.moved.hy) / 2 = 0 ∧
    (B.moved.lz + B.moved.hz) / 2 = 0 := by
  have e2 : ∀ l h s : ℚ, ((l - (l + h) / 2) * s + (h - (l + h) / 2) * s) / 2 = 0 :=
    fun l h s => by ring
  exact ⟨e2 _ _ _, e2 _ _ _, e2 _ _ _⟩

theorem moveAtom_eq_self (b : Bounds) (r : Atom) (hx : (moveAtom b r).x = r.x)
    (hy : (moveAtom b r).y = r.y) (hz : (moveAtom b r).z = r.z) : moveAtom b r = r := by
  cases r
  simp only [moveAtom] at hx hy hz ⊢
  rw [hx, hy, hz]

/-- C17: `normalizeCoordinatesForAtoms` is idempotent in exact arithmetic: for every record
group with finite coordinates, normalizing the normalized group returns the normalized
group. -/
theorem normalize_idempotent (g : List Atom) (hfin : ∀ r ∈ g, r.Finite) :
    normalizeCoordinatesForAtoms (normalizeCoordinatesForAtoms g) =
      normalizeCoordinatesForAtoms g := by
  cases g with
  | nil => rfl
  | cons a t =>
    have hfin2 : ∀ r ∈ (a :: t).map (moveAtom (boxOf a t).toBounds), r.Finite := by
      intro r hr
      rw [List.mem_map] at hr
      obtain ⟨r0, hr0, rfl⟩ := hr
      exact moveAtom_finite _ r0 (hfin r0 hr0)
    rw [normalize_cons a t hfin]
    have hfin3 := hfin2
    rw [List.map_cons] at hfin2 ⊢
    rw [normalize_cons _ _ hfin2, boxOf_moved a t hfin, ← List.map_cons]
    conv_rhs => rw [← List.map_id ((a :: t).map (moveAtom (boxOf a t).toBounds))]
    apply List.map_congr_left
    intro r hr
    have hr' := hfin3 r hr
    obtain ⟨mx, my, mz⟩ := moveAtom_toBounds (boxOf a t).moved r hr'
    obtain ⟨cx, cy, cz⟩ := (boxOf a t).moved_center
    rw [cx, (boxOf a t).moved_scale, sub_zero, mul_one] at mx
    rw [cy, (boxOf a t).moved_scale, sub_zero, mul_one] at my
    rw [cz, (boxOf a t).moved_scale, sub_zero, mul_one] at mz
    exact moveAtom_eq_self _ r (mx.trans (eq_fin_of_isFinite hr'.1).symm)
      (my.trans (eq_fin_of_isFinite hr'.2.1).symm)
      (mz.trans (eq_fin_of_isFinite hr'.2.2).symm)

/-- C17, witness: the two points `(0,0,0)` and `(2,1,0)`. -/
theorem normalize_idempotent_witness :
    (∀ r ∈ [point 0 0 0, point 2 1 0], r.Finite) ∧
    normalizeCoordinatesForAtoms [point 0 0 0, point 2 1 0] ≠ [point 0 0 0, point 2 1 0] ∧
    normalizeCoordinatesForAtoms (normalizeCoordinatesForAtoms [point 0 0 0, point 2 1 0]) =
      normalizeCoordinatesForAtoms [point 0 0 0, point 2 1 0] :=
  ⟨by decide, by decide!, normalize_idempotent [point 0 0 0, point 2 1 0] (by decide)⟩

/-! ## Translation -/

theorem jsMin_add (a b : JSNum) (d : ℚ) :
    JSNum.min (JSNum.add a (JSNum.fin d)) (JSNum.add b (JSNum.fin d)) =
      JSNum.add (JSNum.min a b) (JSNum.fin d) := by
  cases a with
  | nan => cases b <;> rfl
  | inf s =>
    cases b with
    | nan => rfl
    | inf t => rfl
    | fin q => cases s <;> rfl
  | fin p =>
    cases b with
    | nan => rfl
    | inf t => cases t <;> rfl
    | fin q =>
      simp only [JSNum.min, JSNum.add, add_le_add_iff_right]
      split <;> rfl

theorem jsMax_add (a b : JSNum) (d : ℚ) :
    JSNum.max (JSNum.add a (JSNum.fin d)) (JSNum.add b (JSNum.fin d)) =
      JSNum.add (JSNum.max a b) (JSNum.fin d) := by
  cases a with
  | nan => cases b <;> rfl
  | inf s =>
    cases b with
    | nan => rfl
    | inf t => rfl
    | fin q => cases s <;> rfl
  | fin p =>
    cases b with
    | nan => rfl
    | inf t => cases t <;> rfl
    | fin q =>
      simp only [JSNum.max, JSNum.add, add_le_add_iff_right]
      split <;> rfl

theorem jsSub_add (a b : JSNum) (d : ℚ) :
    JSNum.sub (JSNum.add a (JSNum.fin d)) (JSNum.add b (JSNum.fin d)) = JSNum.sub a b := by
  cases a with
  | nan => cases b <;> rfl
  | inf s =>
    cases b with
    | nan => rfl
    | inf t => rfl
    | fin q => rfl
  | fin p =>
    cases b with
    | nan => rfl
    | inf t => rfl
    | fin q =>
      simp only [JSNum.sub, JSNum.add, add_sub_add_right_eq_sub]

theorem jsCenter_add (a b : JSNum) (d : ℚ) :
    JSNum.div (JSNum.add (JSNum.add a (JSNum.fin d)) (JSNum.add b (JSNum.fin d)))
        (JSNum.fin 2) =
      JSNum.add (JSNum.div (JSNum.add a b) (JSNum.fin 2)) (JSNum.fin d) := by
  cases a with
  | nan => cases b <;> rfl
  | inf s =>
    cases b with
    | nan => rfl
    | inf t =>
      simp only [JSNum.add]
      split <;> rfl
    | fin q => rfl
  | fin p =>
    cases b with
    | nan => rfl
    | inf t => rfl
    | fin q =>
      have h2 : (2 : ℚ) ≠ 0 := by norm_num
      simp only [JSNum.add, JSNum.div, if_neg h2]
      congr 1
      ring

theorem step_shift (dx dy dz : ℚ) (b : Bounds) (a : Atom) :
    Bounds.step (b.shift dx dy dz) (translate dx dy dz a) =
      (Bounds.step b a).shift dx dy dz := by
  unfold Bounds.step Bounds.shift translate
  simp only [jsMin_add, jsMax_add]

theorem foldl_step_shift (dx dy dz : ℚ) (g : List Atom) (b : Bounds) :
    (g.map (translate dx dy dz)).foldl Bounds.step (b.shift dx dy dz) =
      (g.foldl Bounds.step b).shift dx dy dz := by
  induction g generalizing b with
  | nil => rfl
  | cons a t ih => rw [List.map_cons, List.foldl_cons, List.foldl_cons, step_shift, ih]

theorem bounds_translate (dx dy dz : ℚ) (g : List Atom) :
    bounds (g.map (translate dx dy dz)) = (bounds g).shift dx dy dz := by
  unfold bounds
  rw [← foldl_step_shift]
  rfl

theorem shift_maxSize (dx dy dz : ℚ) (b : Bounds) :
    (b.shift dx dy dz).maxSize = b.maxSize := by
  unfold Bounds.maxSize Bounds.sizeX Bounds.sizeY Bounds.sizeZ Bounds.shift
  simp only [jsSub_add]

theorem shift_scale (dx dy dz : ℚ) (b : Bounds) : (b.shift dx dy dz).scale = b.scale := by
  unfold Bounds.scale
  rw [shift_maxSize]

theorem moveAtom_translate (dx dy dz : ℚ) (b : Bounds) (a : Atom) :
    moveAtom (b.shift dx dy dz) (translate dx dy dz a) = moveAtom b a := by
  have cx : (b.shift dx dy dz).centerX = JSNum.add b.centerX (JSNum.fin dx) :=
    jsCenter_add b.minX b.maxX dx
  have cy : (b.shift dx dy dz).centerY = JSNum.add b.centerY (JSNum.fin dy) :=
    jsCenter_add b.minY b.maxY dy
  have cz : (b.shift dx dy dz).centerZ = JSNum.add b.centerZ (JSNum.fin dz) :=
    jsCenter_add b.minZ b.maxZ dz
  unfold moveAtom
  rw [cx, cy, cz, shift_scale]
  unfold translate
  simp only [jsSub_add]

/-- C18: `normalizeCoordinatesForAtoms` is translation invariant in exact arithmetic: for
every record group and every offset `(dx, dy, dz)`, normalizing the group with the offset
added to the coordinates of every record gives what normalizing the group gives. -/
theorem normalize_translate (g : List Atom) (dx dy dz : ℚ) :
    normalizeCoordinatesForAtoms (g.map (translate dx dy dz)) =
      normalizeCoordinatesForAtoms g := by
  cases g with
  | nil => rfl
  | cons a t =>
    unfold normalizeCoordinatesForAtoms
    rw [bounds_translate, if_neg (by simp), if_neg (by simp), List.map_map]
    apply List.map_congr_left
    intro r _
    exact moveAtom_translate dx dy dz _ r

end Cprotein
